import Mathlib

/-!
Shallow embedding of the gr-opus streaming adapters
(`src/python/opus_encoder.py` and `src/python/opus_decoder.py`).

Samples (Python `float32` values) are modelled as exact rationals `ℚ`;
bytes as `ℕ`; 16-bit PCM values as `ℤ`.  The external codec engine
(`opuslib`) is modelled as an opaque pure function parameter:
`enc : List ℤ → Option (List ℕ)` for the encoder and
`dec : List ℕ → Option (List ℤ)` for the decoder, where `none` stands
for the engine raising an exception.  The caller's output region is
modelled by the list of elements written so far (writes in both work
functions are contiguous from offset `0`, so `output_idx` is always the
length of that list) together with its capacity `noutput`.

The extraction / decode loops of both `work` functions are written with
an explicit fuel parameter; the `work` wrappers pass
`queue length + 1` fuel, which is enough to reach the source loop's
exit condition whenever the per-iteration consumption
(`frame_size × channels`, `packet_size`, or an accepted candidate
length) is positive, as it is for every configuration the source
accepts.
-/

namespace GrOpus

/-- `lastN n xs` is the suffix of the most recent `min n xs.length`
elements of `xs` (Python `xs[len(xs) - n :]` for `n ≤ len(xs)`). -/
def lastN {α : Type} (n : ℕ) (xs : List α) : List α :=
  xs.drop (xs.length - n)

/-- Bounded append with drop-oldest eviction, the shared buffer update of
`opus_encoder.work` (lines 108–114) and `opus_decoder.work`
(lines 97–103): extend the queue with the input, then, if the length
exceeds the capacity, drop the `length − capacity` oldest elements. -/
def appendBounded {α : Type} (cap : ℕ) (q inp : List α) : List α :=
  let q2 := q ++ inp
  if cap < q2.length then q2.drop (q2.length - cap) else q2

/-! ## Encoder (`opus_encoder.py`) -/

/-- `self.max_int16 = 32767.0` in `opus_encoder.__init__`. -/
def encMaxInt16 : ℚ := 32767

/-- `self.max_int16 = 32767.0` in `opus_decoder.__init__`. -/
def decMaxInt16 : ℚ := 32767

/-- `self.frame_size = int(sample_rate * 0.020)`: 20 ms worth of samples.
For every rate the block accepts (multiples of 50) the float product is
within one ulp of the integer `rate / 50`, so `int` truncation yields
`rate * 20 / 1000` exactly. -/
def frameSize (rate : ℕ) : ℕ := rate * 20 / 1000

/-- Encoder-side quantization
`(frame_samples * self.max_int16).astype(np.int16)`
(line 132): multiply by 32767 and truncate toward zero
(numpy float→int cast semantics: floor for non-negative, ceil for
negative values). -/
def quantize (x : ℚ) : ℤ :=
  if 0 ≤ x * encMaxInt16 then ⌊x * encMaxInt16⌋ else ⌈x * encMaxInt16⌉

/-- Decoder-side conversion
`int16_samples.astype(np.float32) / self.max_int16`
(lines 120–121 and 188). -/
def dequantize (v : ℤ) : ℚ := (v : ℚ) / decMaxInt16

/-- Construction parameters of `opus_encoder` that the `work` loop uses. -/
structure EncCfg where
  sampleRate : ℕ
  channels : ℕ
  deriving DecidableEq, Repr

/-- `frame_size_samples = self.frame_size * self.channels` (line 117). -/
def EncCfg.frameSizeSamples (c : EncCfg) : ℕ :=
  frameSize c.sampleRate * c.channels

/-- `self.max_buffer_samples = sample_rate * channels * 10` (line 65). -/
def EncCfg.maxBufferSamples (c : EncCfg) : ℕ :=
  c.sampleRate * c.channels * 10

/-- The frame-extraction loop of `opus_encoder.work` (lines 121–152).
State: `buf` is `self.sample_buffer`, `out` is the list of bytes written
to the output region so far (`out.length` is `output_idx`).  Per
iteration: while a full frame is buffered and output capacity remains,
extract the oldest `fss` samples, quantize them, and encode.  If the
engine raises (`none`), break — the extracted frame is lost.  If the
packet fits in the remaining capacity, write it and continue; otherwise
push the frame back onto the front of the buffer and break. -/
def encLoop (enc : List ℤ → Option (List ℕ)) (fss noutput : ℕ) :
    ℕ → List ℚ → List ℕ → List ℚ × List ℕ
  | 0, buf, out => (buf, out)
  | fuel + 1, buf, out =>
    if fss ≤ buf.length ∧ out.length < noutput then
      let frame := buf.take fss
      let rest := buf.drop fss
      match enc (frame.map quantize) with
      | none => (rest, out)
      | some data =>
        if out.length + data.length ≤ noutput then
          encLoop enc fss noutput fuel rest (out ++ data)
        else
          (frame ++ rest, out)
    else (buf, out)

/-- `opus_encoder.work`: append the input chunk to the sample buffer with
drop-oldest eviction, then run the frame-extraction loop.  Returns the
final sample buffer and the bytes written; the Python return value
(`output_idx`) is the length of the second component. -/
def encWork (enc : List ℤ → Option (List ℕ)) (cfg : EncCfg)
    (buf0 input : List ℚ) (noutput : ℕ) : List ℚ × List ℕ :=
  let buf1 := appendBounded cfg.maxBufferSamples buf0 input
  encLoop enc cfg.frameSizeSamples noutput (buf1.length + 1) buf1 []

/-! ## Decoder (`opus_decoder.py`) -/

/-- `self.max_buffer_size = 1024 * 1024` (line 56). -/
def maxBufferSize : ℕ := 1024 * 1024

/-- Construction parameters of `opus_decoder` that the `work` loop uses. -/
structure DecCfg where
  sampleRate : ℕ
  channels : ℕ
  packetSize : ℕ
  deriving DecidableEq, Repr

/-- The fixed-size decode loop of `opus_decoder.work` (lines 110–137).
Each iteration unconditionally deletes the first `P` bytes from the
queue and attempts one decode of them; on engine failure (`none`) or an
empty result the slice is discarded and the loop continues; on success
the converted samples are written up to the remaining output capacity.
The third component counts decode attempts made. -/
def decFixedLoop (dec : List ℕ → Option (List ℤ)) (P noutput : ℕ) :
    ℕ → List ℕ → List ℚ → List ℕ × List ℚ × ℕ
  | 0, q, out => (q, out, 0)
  | fuel + 1, q, out =>
    if P ≤ q.length ∧ out.length < noutput then
      let out2 :=
        match dec (q.take P) with
        | none => out
        | some pcm =>
          if pcm.isEmpty then out
          else
            out ++ (pcm.map dequantize).take
              (min (pcm.map dequantize).length (noutput - out.length))
      let r := decFixedLoop dec P noutput fuel (q.drop P) out2
      (r.1, r.2.1, r.2.2 + 1)
    else (q, out, 0)

/-- The fixed reference ladder of common Opus packet sizes (line 156). -/
def refSizes : List ℕ := [60, 80, 100, 120, 150, 180, 200, 250, 300, 350, 400]

/-- `max(40, min(400, len(self.packet_buffer) // 5))` (line 147). -/
def estimatedPacketSize (qlen : ℕ) : ℕ := max 40 (min 400 (qlen / 5))

/-- The sequential-fill loop (lines 160–166): walk the remaining trial
sizes in order, adding each size not already present, and stop as soon
as the candidate set holds `cap` entries. -/
def seqFill (cap : ℕ) : List ℕ → List ℕ → List ℕ
  | [], s => s
  | sz :: rest, s =>
    let s2 := if sz ∈ s then s else s ++ [sz]
    if cap ≤ s2.length then s2 else seqFill cap rest s2

/-- One step of the reference-ladder loop (lines 156–158): add the size
to the candidate set when it fits in the queue. -/
def refAdd (qlen : ℕ) (s : List ℕ) (r : ℕ) : List ℕ :=
  if r ≤ qlen then (if r ∈ s then s else s ++ [r]) else s

/-- The candidate ladder of `opus_decoder.work` in variable-size mode
(lines 145–169), built once per call from the post-append queue length:
the estimated size if it fits the queue, the reference sizes that fit
the queue, then sequential sizes `1, 2, …` up to
`min(4000, qlen + 1) - 1` until the set holds 50 entries; finally
sorted ascending.  The Python set is modelled as a duplicate-free list;
insertion order does not affect the sorted result. -/
def candidates (qlen : ℕ) : List ℕ :=
  let est := estimatedPacketSize qlen
  let s0 : List ℕ := if est ≤ qlen then [est] else []
  let s1 := refSizes.foldl (refAdd qlen) s0
  let s2 := seqFill 50 (List.range' 1 (min 4000 (qlen + 1) - 1)) s1
  s2.insertionSort (· ≤ ·)

/-- `np.abs` on an `int16` value: two's-complement absolute value, which
wraps `-32768` to itself. -/
def int16Abs (v : ℤ) : ℤ := if v = -32768 then -32768 else (v.natAbs : ℤ)

/-- `np.max(np.abs(int16_check))` over a nonempty decoded signal
`p :: ps`. -/
def peakAbs (p : ℤ) (ps : List ℤ) : ℤ :=
  ps.foldl (fun a b => max a (int16Abs b)) (int16Abs p)

/-- The acceptance test applied to one candidate length (lines 176–186):
the candidate must fit in the queue, the engine must decode the leading
`c` bytes without raising, the result must be nonempty, and its peak
absolute amplitude must exceed the silence threshold 100. -/
def accepts (dec : List ℕ → Option (List ℤ)) (q : List ℕ) (c : ℕ) : Bool :=
  if q.length < c then false
  else
    match dec (q.take c) with
    | none => false
    | some [] => false
    | some (p :: ps) => decide (100 < peakAbs p ps)

/-- The inner candidate scan of `opus_decoder.work` in variable-size mode
(lines 175–209): try each candidate length in list order; skip lengths
longer than the current queue, engine failures, empty results, and
signals that fail the silence gate; return the first accepted length
with its decoded signal. -/
def tryCands (dec : List ℕ → Option (List ℤ)) (q : List ℕ) :
    List ℕ → Option (ℕ × List ℤ)
  | [] => none
  | c :: cs =>
    if q.length < c then tryCands dec q cs
    else
      match dec (q.take c) with
      | none => tryCands dec q cs
      | some [] => tryCands dec q cs
      | some (p :: ps) =>
        if 100 < peakAbs p ps then some (c, p :: ps)
        else tryCands dec q cs

/-- The outer variable-size decode loop (lines 171–213): while output
capacity remains and the queue is nonempty, scan the ladder from its
smallest entry; on acceptance write the converted samples up to the
remaining capacity and delete exactly the accepted length from the
queue front, then restart the scan; if no candidate is accepted, stop
without touching the queue. -/
def decVarLoop (dec : List ℕ → Option (List ℤ)) (cands : List ℕ)
    (noutput : ℕ) : ℕ → List ℕ → List ℚ → List ℕ × List ℚ
  | 0, q, out => (q, out)
  | fuel + 1, q, out =>
    if out.length < noutput ∧ 0 < q.length then
      match tryCands dec q cands with
      | none => (q, out)
      | some (c, pcm) =>
        decVarLoop dec cands noutput fuel (q.drop c)
          (out ++ (pcm.map dequantize).take
            (min (pcm.map dequantize).length (noutput - out.length)))
    else (q, out)

/-- `opus_decoder.work`: append the input bytes to the packet buffer with
drop-oldest eviction, then run the fixed-size loop when
`packet_size > 0` and the variable-size loop (with the per-call
candidate ladder) otherwise.  Returns the final byte queue and the
samples written; the Python return value (`output_idx`) is the length
of the second component. -/
def decWork (dec : List ℕ → Option (List ℤ)) (cfg : DecCfg)
    (q0 input : List ℕ) (noutput : ℕ) : List ℕ × List ℚ :=
  let q1 := appendBounded maxBufferSize q0 input
  if 0 < cfg.packetSize then
    (let r := decFixedLoop dec cfg.packetSize noutput (q1.length + 1) q1 []
     (r.1, r.2.1))
  else
    decVarLoop dec (candidates q1.length) noutput (q1.length + 1) q1 []

/-- Fixed-size `work` including the decode-attempt count. -/
def decWorkFixedAttempts (dec : List ℕ → Option (List ℤ)) (cfg : DecCfg)
    (q0 input : List ℕ) (noutput : ℕ) : List ℕ × List ℚ × ℕ :=
  let q1 := appendBounded maxBufferSize q0 input
  decFixedLoop dec cfg.packetSize noutput (q1.length + 1) q1 []

/-- A concrete codec-engine instance that encodes the frame holding the
marker sample `1` to the two-byte packet `[9, 9]` and every other frame
to `[7, 7]`; it makes the fate of one particular pushed-back frame
observable in the output bytes. -/
def probeEngine : List ℤ → Option (List ℕ) :=
  fun l => if l = [quantize 1] then some [9, 9] else some [7, 7]

/-! ## Queue lemmas -/

theorem lastN_nil {α : Type} (n : ℕ) : lastN n ([] : List α) = [] := by
  simp [lastN]

theorem length_lastN {α : Type} (n : ℕ) (xs : List α) :
    (lastN n xs).length = min n xs.length := by
  simp [lastN]
  omega

theorem appendBounded_eq_lastN {α : Type} (cap : ℕ) (q inp : List α) :
    appendBounded cap q inp = lastN cap (q ++ inp) := by
  simp only [appendBounded, lastN]
  split_ifs with h
  · rfl
  · rw [show (q ++ inp).length - cap = 0 by omega, List.drop_zero]

theorem lastN_append {α : Type} (n : ℕ) (x y : List α) :
    lastN n (x ++ y) = lastN (n - y.length) x ++ lastN n y := by
  unfold lastN
  rw [List.drop_append_eq_append_drop]
  have hxy : (x ++ y).length = x.length + y.length := List.length_append x y
  rcases le_or_lt n y.length with h | h
  · have e1 : x.drop ((x ++ y).length - n) = ([] : List α) :=
      List.drop_eq_nil_of_le (by omega)
    have e2 : x.drop (x.length - (n - y.length)) = ([] : List α) := by
      rw [show n - y.length = 0 by omega]
      simp
    rw [e1, e2, show (x ++ y).length - n - x.length = y.length - n by omega]
  · rw [show (x ++ y).length - n - x.length = y.length - n by omega,
      show (x ++ y).length - n = x.length - (n - y.length) by omega]

theorem lastN_lastN {α : Type} {m n : ℕ} (w : List α) (h : m ≤ n) :
    lastN m (lastN n w) = lastN m w := by
  unfold lastN
  rw [List.drop_drop]
  congr 1
  simp [List.length_drop]
  omega

theorem lastN_append_absorb {α : Type} (n : ℕ) (w c : List α) :
    lastN n (lastN n w ++ c) = lastN n (w ++ c) := by
  rw [lastN_append, lastN_append, lastN_lastN w (Nat.sub_le n c.length)]

theorem foldl_appendBounded {α : Type} (cap : ℕ) (w : List α)
    (chunks : List (List α)) :
    chunks.foldl (appendBounded cap) (lastN cap w) =
      lastN cap (w ++ chunks.flatten) := by
  induction chunks generalizing w with
  | nil => simp
  | cons c cs ih =>
    rw [List.foldl_cons, appendBounded_eq_lastN, lastN_append_absorb, ih,
      List.flatten_cons, ← List.append_assoc]

/-! ## Claim theorems -/

/-- C1: for every capacity `C` and every sequence of appends, immediately
after an append the queue holds at most `C` elements, and the retained
elements are exactly the most recent `min(total appended, C)` elements
in original order — the drop-oldest FIFO law of `appendBounded`, the
update used by both the encoder's sample buffer (capacity
`sample_rate × channels × 10`) and the decoder's packet buffer
(capacity 1 MiB). -/
theorem C1_bounded_queue_fifo :
    (∀ (α : Type) (cap : ℕ) (chunks : List (List α)),
        (chunks.foldl (appendBounded cap) []).length ≤ cap ∧
        (chunks.foldl (appendBounded cap) []).length =
          min cap chunks.flatten.length ∧
        chunks.foldl (appendBounded cap) [] = lastN cap chunks.flatten) ∧
    (∀ c : EncCfg, c.maxBufferSamples = c.sampleRate * c.channels * 10) ∧
    maxBufferSize = 1024 * 1024 := by
  refine ⟨fun α cap chunks => ?_, fun c => rfl, rfl⟩
  have h := foldl_appendBounded cap ([] : List α) chunks
  rw [lastN_nil] at h
  simp only [List.nil_append] at h
  rw [h, length_lastN]
  exact ⟨Nat.min_le_left _ _, rfl, rfl⟩

/-- C7: the encoder quantizes each sample by multiplying by 32767 and
truncating toward zero (never rounding away from zero), and the decoder
converts back by dividing by 32767; the scale constants of the two
adapters are identical, so the conversions are exact inverses on the
16-bit integer grid. -/
theorem C7_scale_symmetry :
    encMaxInt16 = decMaxInt16 ∧
    (∀ v : ℤ, quantize (dequantize v) = v) ∧
    (∀ x : ℚ, |(quantize x : ℚ)| ≤ |x * encMaxInt16|) := by
  refine ⟨rfl, fun v => ?_, fun x => ?_⟩
  · unfold quantize dequantize
    simp only [encMaxInt16, decMaxInt16]
    rw [div_mul_cancel₀ _ (by norm_num : (32767 : ℚ) ≠ 0)]
    split
    · exact Int.floor_intCast v
    · exact Int.ceil_intCast v
  · unfold quantize
    set y := x * encMaxInt16 with hy
    split
    · next h =>
      rw [abs_of_nonneg h, abs_of_nonneg]
      · exact Int.floor_le y
      · exact_mod_cast Int.floor_nonneg.mpr h
    · next h =>
      push_neg at h
      rw [abs_of_neg h, abs_of_nonpos]
      · have := Int.le_ceil y
        linarith
      · have h0 : (⌈y⌉ : ℤ) ≤ 0 := Int.ceil_le.mpr (by push_cast; linarith)
        exact_mod_cast h0

/-! ## Loop lemmas -/

theorem decVarLoop_of_not_guard (dec : List ℕ → Option (List ℤ))
    (cands : List ℕ) (noutput fuel : ℕ) (q : List ℕ) (out : List ℚ)
    (h : ¬(out.length < noutput ∧ 0 < q.length)) :
    decVarLoop dec cands noutput fuel q out = (q, out) := by
  cases fuel with
  | zero => rfl
  | succ f =>
    rw [decVarLoop]
    rw [if_neg h]

theorem decFixedLoop_of_not_guard (dec : List ℕ → Option (List ℤ))
    (P noutput fuel : ℕ) (q : List ℕ) (out : List ℚ)
    (h : ¬(P ≤ q.length ∧ out.length < noutput)) :
    decFixedLoop dec P noutput fuel q out = (q, out, 0) := by
  cases fuel with
  | zero => rfl
  | succ f =>
    rw [decFixedLoop]
    rw [if_neg h]

/-- C2: in variable-size mode, a call in which no candidate of the ladder
is accepted leaves the byte queue exactly as the post-append queue
(the prior queue plus the new input, minus only drop-oldest eviction):
no bytes are removed or discarded on a no-match call. -/
theorem C2_no_match_preserves_queue (dec : List ℕ → Option (List ℤ))
    (cfg : DecCfg) (q0 input : List ℕ) (noutput : ℕ)
    (hmode : cfg.packetSize = 0)
    (hnone : tryCands dec (appendBounded maxBufferSize q0 input)
        (candidates (appendBounded maxBufferSize q0 input).length) = none ∨
      noutput = 0) :
    (decWork dec cfg q0 input noutput).1 =
      appendBounded maxBufferSize q0 input := by
  simp only [decWork, hmode, lt_self_iff_false, if_false]
  rcases hnone with hnone | hzero
  · rw [decVarLoop]
    split_ifs with hg
    · rw [hnone]
    · rfl
  · subst hzero
    rw [decVarLoop_of_not_guard]
    omega

/-- C2 witness: an always-failing engine on a one-byte queue leaves the
queue untouched. -/
theorem C2_no_match_preserves_queue_witness :
    (decWork (fun _ => none) ⟨48000, 1, 0⟩ [] [5] 8).1 =
      appendBounded maxBufferSize [] [5] :=
  C2_no_match_preserves_queue (fun _ => none) ⟨48000, 1, 0⟩ [] [5] 8 rfl
    (Or.inl (by decide))

/-- C6: when the codec engine's encode operation fails on the frame just
extracted, the call's loop returns immediately: the extracted frame's
samples are gone from the buffer (not restored), no further frames are
processed, no error escapes, and the bytes written so far are returned. -/
theorem C6_encode_failure_aborts (enc : List ℤ → Option (List ℕ))
    (fss noutput fuel : ℕ) (buf : List ℚ) (out : List ℕ)
    (hbuf : fss ≤ buf.length) (hout : out.length < noutput)
    (hfail : enc ((buf.take fss).map quantize) = none) :
    encLoop enc fss noutput (fuel + 1) buf out = (buf.drop fss, out) := by
  rw [encLoop]
  rw [if_pos ⟨hbuf, hout⟩]
  simp only [hfail]

/-- C6 witness: a concrete failing engine aborts the call after losing the
extracted frame. -/
theorem C6_encode_failure_aborts_witness :
    encLoop (fun _ => none) 2 5 (0 + 1) [0, 0, 0] [] =
      (([0, 0, 0] : List ℚ).drop 2, []) :=
  C6_encode_failure_aborts (fun _ => none) 2 5 0 [0, 0, 0] []
    (by decide) (by decide) rfl

/-- C10: the encoder's eviction removes exactly `length − capacity` oldest
sample slots with no alignment to frame or channel boundaries: whenever
a stereo configuration overflows by an odd count `e`, the retained
buffer is the raw sample stream shifted by `e` slots, so slot `i` of
the retained buffer is stream slot `e + i`, whose interleave parity —
the left/right channel assignment — differs from that of slot `i`. -/
theorem C10_eviction_ignores_interleaving (c : EncCfg) (hch : c.channels = 2)
    (buf inp : List ℚ) (e : ℕ)
    (hlen : (buf ++ inp).length = c.maxBufferSamples + e) (hodd : e % 2 = 1) :
    appendBounded c.maxBufferSamples buf inp = (buf ++ inp).drop e ∧
    (∀ i : ℕ, (appendBounded c.maxBufferSamples buf inp)[i]? =
      (buf ++ inp)[e + i]?) ∧
    (∀ i : ℕ, (e + i) % c.channels ≠ i % c.channels) := by
  have hdrop : appendBounded c.maxBufferSamples buf inp = (buf ++ inp).drop e := by
    simp only [appendBounded]
    rw [hlen]
    rw [if_pos (by omega)]
    rw [show c.maxBufferSamples + e - c.maxBufferSamples = e by omega]
  refine ⟨hdrop, fun i => ?_, fun i => by rw [hch]; omega⟩
  rw [hdrop, List.getElem?_drop]

/-- C10 witness: a stereo-capacity-20 instance overflowing by one slot. -/
theorem C10_eviction_ignores_interleaving_witness :
    appendBounded (EncCfg.maxBufferSamples ⟨1, 2⟩) [] (List.replicate 21 (0 : ℚ)) =
      (([] : List ℚ) ++ List.replicate 21 (0 : ℚ)).drop 1 ∧
    (∀ i : ℕ, (appendBounded (EncCfg.maxBufferSamples ⟨1, 2⟩) []
        (List.replicate 21 (0 : ℚ)))[i]? =
      (([] : List ℚ) ++ List.replicate 21 (0 : ℚ))[1 + i]?) ∧
    (∀ i : ℕ, (1 + i) % (⟨1, 2⟩ : EncCfg).channels ≠ i % (⟨1, 2⟩ : EncCfg).channels) :=
  C10_eviction_ignores_interleaving ⟨1, 2⟩ rfl [] (List.replicate 21 (0 : ℚ)) 1
    (by simp [EncCfg.maxBufferSamples]) (by decide)

theorem decFixedLoop_drop_attempts (dec : List ℕ → Option (List ℤ))
    (P noutput : ℕ) (hP : 0 < P) :
    ∀ (fuel : ℕ) (q : List ℕ) (out : List ℚ),
      (decFixedLoop dec P noutput fuel q out).1 =
        q.drop (P * (decFixedLoop dec P noutput fuel q out).2.2) ∧
      (decFixedLoop dec P noutput fuel q out).2.2 ≤ q.length / P := by
  intro fuel
  induction fuel with
  | zero => intro q out; exact ⟨rfl, Nat.zero_le _⟩
  | succ f ih =>
    intro q out
    rw [decFixedLoop]
    split_ifs with hg
    · obtain ⟨hq, -⟩ := hg
      dsimp only
      obtain ⟨ih1, ih2⟩ := ih (q.drop P)
        (match dec (q.take P) with
         | none => out
         | some pcm =>
           if pcm.isEmpty then out
           else
             out ++ (pcm.map dequantize).take
               (min (pcm.map dequantize).length (noutput - out.length)))
      simp only [List.length_drop] at ih2
      constructor
      · rw [ih1, List.drop_drop]
        congr 1
        ring
      · have h1 : _ * P ≤ q.length - P := (Nat.le_div_iff_mul_le hP).mp ih2
        have h2 := Nat.add_le_add_right h1 P
        rw [Nat.sub_add_cancel hq] at h2
        exact (Nat.le_div_iff_mul_le hP).mpr (by rw [Nat.succ_mul]; exact h2)
    · exact ⟨rfl, Nat.zero_le _⟩

/-- C5: in fixed-size mode every loop iteration removes exactly
`packet_size` bytes from the queue front before its decode attempt and
never requeues them, so after a call the queue is the post-append queue
with `packet_size × attempts` leading bytes gone, and the number of
decode attempts is at most `queue_length / packet_size` (at most `N`
when the call starts with `N·P` bytes); the loop always terminates. -/
theorem C5_fixed_mode_consumption (dec : List ℕ → Option (List ℤ))
    (cfg : DecCfg) (q0 input : List ℕ) (noutput : ℕ)
    (hP : 0 < cfg.packetSize) :
    (decWorkFixedAttempts dec cfg q0 input noutput).1 =
      (appendBounded maxBufferSize q0 input).drop
        (cfg.packetSize * (decWorkFixedAttempts dec cfg q0 input noutput).2.2) ∧
    (decWorkFixedAttempts dec cfg q0 input noutput).2.2 ≤
      (appendBounded maxBufferSize q0 input).length / cfg.packetSize ∧
    decWork dec cfg q0 input noutput =
      ((decWorkFixedAttempts dec cfg q0 input noutput).1,
        (decWorkFixedAttempts dec cfg q0 input noutput).2.1) := by
  obtain ⟨h1, h2⟩ := decFixedLoop_drop_attempts dec cfg.packetSize noutput hP
    ((appendBounded maxBufferSize q0 input).length + 1)
    (appendBounded maxBufferSize q0 input) []
  refine ⟨h1, h2, ?_⟩
  simp only [decWork, decWorkFixedAttempts, if_pos hP]

/-- C5 witness: five bytes, packet size two, a rejecting engine: two
attempts, four bytes consumed, one byte left. -/
theorem C5_fixed_mode_consumption_witness :
    (decWorkFixedAttempts (fun _ => none) ⟨48000, 1, 2⟩ [] [1, 2, 3, 4, 5] 4).1 =
      (appendBounded maxBufferSize [] [1, 2, 3, 4, 5]).drop
        (2 * (decWorkFixedAttempts (fun _ => none) ⟨48000, 1, 2⟩ []
          [1, 2, 3, 4, 5] 4).2.2) ∧
    (decWorkFixedAttempts (fun _ => none) ⟨48000, 1, 2⟩ [] [1, 2, 3, 4, 5] 4).2.2 ≤
      (appendBounded maxBufferSize [] [1, 2, 3, 4, 5]).length / 2 ∧
    decWork (fun _ => none) ⟨48000, 1, 2⟩ [] [1, 2, 3, 4, 5] 4 =
      ((decWorkFixedAttempts (fun _ => none) ⟨48000, 1, 2⟩ [] [1, 2, 3, 4, 5] 4).1,
        (decWorkFixedAttempts (fun _ => none) ⟨48000, 1, 2⟩ [] [1, 2, 3, 4, 5] 4).2.1) :=
  C5_fixed_mode_consumption (fun _ => none) ⟨48000, 1, 2⟩ [] [1, 2, 3, 4, 5] 4
    (by decide)

theorem encLoop_length_le (enc : List ℤ → Option (List ℕ)) (fss noutput : ℕ) :
    ∀ (fuel : ℕ) (buf : List ℚ) (out : List ℕ), out.length ≤ noutput →
      (encLoop enc fss noutput fuel buf out).2.length ≤ noutput := by
  intro fuel
  induction fuel with
  | zero => intro buf out h; exact h
  | succ f ih =>
    intro buf out h
    rw [encLoop]
    split_ifs with hg
    · dsimp only
      rcases he : enc ((buf.take fss).map quantize) with _ | data
      · exact h
      · dsimp only
        split_ifs with hfit
        · exact ih (buf.drop fss) (out ++ data) (by simpa using hfit)
        · exact h
    · exact h

theorem decFixedLoop_length_le (dec : List ℕ → Option (List ℤ))
    (P noutput : ℕ) :
    ∀ (fuel : ℕ) (q : List ℕ) (out : List ℚ), out.length ≤ noutput →
      (decFixedLoop dec P noutput fuel q out).2.1.length ≤ noutput := by
  intro fuel
  induction fuel with
  | zero => intro q out h; exact h
  | succ f ih =>
    intro q out h
    rw [decFixedLoop]
    split_ifs with hg
    · dsimp only
      apply ih
      rcases dec (q.take P) with _ | pcm
      · exact h
      · dsimp only
        split_ifs with he
        · exact h
        · simp only [List.length_append, List.length_take, List.length_map]
          omega
    · exact h

theorem decVarLoop_length_le (dec : List ℕ → Option (List ℤ))
    (cands : List ℕ) (noutput : ℕ) :
    ∀ (fuel : ℕ) (q : List ℕ) (out : List ℚ), out.length ≤ noutput →
      (decVarLoop dec cands noutput fuel q out).2.length ≤ noutput := by
  intro fuel
  induction fuel with
  | zero => intro q out h; exact h
  | succ f ih =>
    intro q out h
    rw [decVarLoop]
    split_ifs with hg
    · rcases ht : tryCands dec q cands with _ | ⟨c, pcm⟩
      · exact h
      · exact ih (q.drop c) _ (by
          simp only [List.length_append, List.length_take]
          omega)
    · exact h

/-- C8: for every call of either adapter, the number of output elements
written never exceeds the output region's capacity; the Python return
value `output_idx` is by construction the length of the written
output. -/
theorem C8_output_within_capacity :
    (∀ (enc : List ℤ → Option (List ℕ)) (cfg : EncCfg) (buf0 input : List ℚ)
        (noutput : ℕ),
      (encWork enc cfg buf0 input noutput).2.length ≤ noutput) ∧
    (∀ (dec : List ℕ → Option (List ℤ)) (cfg : DecCfg) (q0 input : List ℕ)
        (noutput : ℕ),
      (decWork dec cfg q0 input noutput).2.length ≤ noutput) := by
  constructor
  · intro enc cfg buf0 input noutput
    exact encLoop_length_le enc cfg.frameSizeSamples noutput _ _ []
      (Nat.zero_le _)
  · intro dec cfg q0 input noutput
    simp only [decWork]
    split_ifs with hP
    · exact decFixedLoop_length_le dec cfg.packetSize noutput _ _ []
        (Nat.zero_le _)
    · exact decVarLoop_length_le dec _ noutput _ _ [] (Nat.zero_le _)

/-- C9: in both decode modes, when an accepted (or fixed-mode) packet
decodes to more samples than the remaining output capacity, exactly the
surplus beyond the capacity is discarded — the call ends with the
output full and the extra samples stored nowhere — while the packet's
bytes are still fully consumed from the queue. -/
theorem C9_surplus_samples_discarded :
    (∀ (dec : List ℕ → Option (List ℤ)) (P noutput fuel : ℕ) (q : List ℕ)
        (out : List ℚ) (pcm : List ℤ),
      P ≤ q.length → out.length < noutput → dec (q.take P) = some pcm →
      pcm ≠ [] → noutput - out.length < pcm.length →
      decFixedLoop dec P noutput (fuel + 1) q out =
        (q.drop P,
         out ++ (pcm.map dequantize).take (noutput - out.length), 1)) ∧
    (∀ (dec : List ℕ → Option (List ℤ)) (cands : List ℕ) (noutput fuel : ℕ)
        (q : List ℕ) (out : List ℚ) (c : ℕ) (pcm : List ℤ),
      out.length < noutput → 0 < q.length →
      tryCands dec q cands = some (c, pcm) →
      noutput - out.length < pcm.length →
      decVarLoop dec cands noutput (fuel + 1) q out =
        (q.drop c, out ++ (pcm.map dequantize).take (noutput - out.length))) := by
  constructor
  · intro dec P noutput fuel q out pcm hq hout hdec hne hsur
    rcases pcm with _ | ⟨p, ps⟩
    · exact absurd rfl hne
    rw [decFixedLoop, if_pos ⟨hq, hout⟩]
    dsimp only
    simp only [hdec, List.isEmpty_cons, Bool.false_eq_true, if_false]
    have hmin : min ((p :: ps).map dequantize).length (noutput - out.length) =
        noutput - out.length :=
      Nat.min_eq_right (by simp only [List.length_map]; omega)
    rw [hmin]
    have hlen2 : (out ++ ((p :: ps).map dequantize).take
        (noutput - out.length)).length = noutput := by
      simp only [List.length_append, List.length_take, List.length_map]
      omega
    rw [decFixedLoop_of_not_guard dec P noutput fuel (q.drop P) _
      (by rw [hlen2]; omega)]
  · intro dec cands noutput fuel q out c pcm hout hq htry hsur
    rw [decVarLoop, if_pos ⟨hout, hq⟩]
    simp only [htry]
    have hmin : min (pcm.map dequantize).length (noutput - out.length) =
        noutput - out.length :=
      Nat.min_eq_right (by simp only [List.length_map]; omega)
    rw [hmin]
    have hlen2 : (out ++ (pcm.map dequantize).take
        (noutput - out.length)).length = noutput := by
      simp only [List.length_append, List.length_take, List.length_map]
      omega
    rw [decVarLoop_of_not_guard dec cands noutput fuel (q.drop c) _
      (by rw [hlen2]; omega)]

/-- C9 witness: a two-sample decode against one remaining output slot, in
each mode: one sample is written, the surplus sample vanishes, and the
packet's bytes leave the queue. -/
theorem C9_surplus_samples_discarded_witness :
    decFixedLoop (fun _ => some [200, 300]) 2 1 (0 + 1) [1, 2, 3] [] =
      (([1, 2, 3] : List ℕ).drop 2,
       [] ++ (([200, 300] : List ℤ).map dequantize).take (1 - List.length ([] : List ℚ)), 1) ∧
    decVarLoop (fun _ => some [200, 300]) [1] 1 (0 + 1) [9] [] =
      (([9] : List ℕ).drop 1,
       [] ++ (([200, 300] : List ℤ).map dequantize).take (1 - List.length ([] : List ℚ))) :=
  ⟨C9_surplus_samples_discarded.1 (fun _ => some [200, 300]) 2 1 0 [1, 2, 3] []
      [200, 300] (by decide) (by decide) rfl (by decide) (by decide),
   C9_surplus_samples_discarded.2 (fun _ => some [200, 300]) [1] 1 0 [9] [] 1
      [200, 300] (by decide) (by decide) (by decide) (by decide)⟩

theorem appendBounded_of_le {α : Type} (cap : ℕ) (q inp : List α)
    (h : (q ++ inp).length ≤ cap) : appendBounded cap q inp = q ++ inp := by
  simp only [appendBounded]
  rw [if_neg (by omega)]

theorem encLoop_of_not_guard (enc : List ℤ → Option (List ℕ))
    (fss noutput fuel : ℕ) (buf : List ℚ) (out : List ℕ)
    (h : ¬(fss ≤ buf.length ∧ out.length < noutput)) :
    encLoop enc fss noutput fuel buf out = (buf, out) := by
  cases fuel with
  | zero => rfl
  | succ f =>
    rw [encLoop]
    rw [if_neg h]

theorem encLoop_pushback_step (enc : List ℤ → Option (List ℕ))
    (fss noutput fuel : ℕ) (buf : List ℚ) (out : List ℕ) (p : List ℕ)
    (hbuf : fss ≤ buf.length) (hout : out.length < noutput)
    (henc : enc ((buf.take fss).map quantize) = some p)
    (hnofit : ¬(out.length + p.length ≤ noutput)) :
    encLoop enc fss noutput (fuel + 1) buf out = (buf, out) := by
  rw [encLoop]
  rw [if_pos ⟨hbuf, hout⟩]
  simp only [henc]
  rw [if_neg hnofit, List.take_append_drop]

theorem encLoop_write_step (enc : List ℤ → Option (List ℕ))
    (fss noutput fuel : ℕ) (buf : List ℚ) (out : List ℕ) (p : List ℕ)
    (hbuf : fss ≤ buf.length) (hout : out.length < noutput)
    (henc : enc ((buf.take fss).map quantize) = some p)
    (hfit : out.length + p.length ≤ noutput) :
    encLoop enc fss noutput (fuel + 1) buf out =
      encLoop enc fss noutput fuel (buf.drop fss) (out ++ p) := by
  rw [encLoop]
  rw [if_pos ⟨hbuf, hout⟩]
  simp only [henc]
  rw [if_pos hfit]

theorem encLoop_out_mono (enc : List ℤ → Option (List ℕ)) (fss noutput : ℕ) :
    ∀ (fuel : ℕ) (buf : List ℚ) (out : List ℕ),
      ∃ r, (encLoop enc fss noutput fuel buf out).2 = out ++ r := by
  intro fuel
  induction fuel with
  | zero => intro buf out; exact ⟨[], by simp [encLoop]⟩
  | succ f ih =>
    intro buf out
    rw [encLoop]
    split_ifs with hg
    · dsimp only
      rcases he : enc ((buf.take fss).map quantize) with _ | data
      · exact ⟨[], by simp⟩
      · dsimp only
        split_ifs with hfit
        · obtain ⟨r, hr⟩ := ih (buf.drop fss) (out ++ data)
          exact ⟨data ++ r, by rw [hr, List.append_assoc]⟩
        · exact ⟨[], by simp⟩
    · exact ⟨[], by simp⟩

/-- C4 (amended): a frame whose encoded packet did not fit in call `N`'s
remaining output capacity is pushed back to the buffer front; provided
the input appended on call `N + 1` does not overflow the queue capacity
(no eviction between the calls), that same frame is the first one
extracted and encoded on call `N + 1`, and — the engine being a pure
function of the quantized frame — the packet written first on call
`N + 1` is byte-identical to the packet `p` that call `N` computed for
it.  The unamended claim is false: eviction removes the pushed-back
frame's oldest slots first (see `C4_pushback_counterexample`). -/
theorem C4_pushback_first_and_identical (enc : List ℤ → Option (List ℕ))
    (cfg : EncCfg) (buf0 in0 : List ℚ) (nout1 : ℕ) (buf1 : List ℚ)
    (w1 : List ℕ) (in1 : List ℚ) (nout2 : ℕ) (p : List ℕ)
    (_hres : encWork enc cfg buf0 in0 nout1 = (buf1, w1))
    (hframe : cfg.frameSizeSamples ≤ buf1.length)
    (henc : enc ((buf1.take cfg.frameSizeSamples).map quantize) = some p)
    (_hnofit : nout1 < w1.length + p.length)
    (hnoevict : buf1.length + in1.length ≤ cfg.maxBufferSamples)
    (hfit : p.length ≤ nout2) :
    ∃ rest, (encWork enc cfg buf1 in1 nout2).2 = p ++ rest := by
  have hb2 : appendBounded cfg.maxBufferSamples buf1 in1 = buf1 ++ in1 :=
    appendBounded_of_le _ _ _ (by simp only [List.length_append]; omega)
  rcases Nat.eq_zero_or_pos nout2 with h0 | hpos
  · subst h0
    have hp : p = [] := List.eq_nil_of_length_eq_zero (Nat.le_zero.mp hfit)
    subst hp
    exact ⟨(encWork enc cfg buf1 in1 0).2, by simp⟩
  · simp only [encWork, hb2]
    rw [encLoop]
    rw [if_pos ⟨by simp only [List.length_append]; omega, by simpa using hpos⟩]
    dsimp only
    rw [List.take_append_of_le_length hframe, henc]
    dsimp only
    rw [if_pos (by simpa using hfit)]
    obtain ⟨r, hr⟩ := encLoop_out_mono enc cfg.frameSizeSamples nout2
      (buf1 ++ in1).length ((buf1 ++ in1).drop cfg.frameSizeSamples) ([] ++ p)
    exact ⟨r, by rw [hr]; simp⟩

/-- C4 witness: frame size one, a constant one-byte engine; call `N` has
room for one packet only, pushes the second frame back, and call
`N + 1` writes that frame's packet first. -/
theorem C4_pushback_first_and_identical_witness :
    ∃ rest, (encWork (fun _ => some [7]) ⟨50, 1⟩ [0] [] 8).2 = [7] ++ rest :=
  C4_pushback_first_and_identical (fun _ => some [7]) ⟨50, 1⟩ [] [0, 0] 1
    [0] [7] [] 8 [7] (by decide) (by decide) rfl (by decide) (by decide)
    (by decide)

/-- C4 counterexample to the unamended claim: sample rate 50, mono
(frame size 1, capacity 500).  Call `N` feeds the marker frame `[1]`
followed by 499 zeros with output capacity 1: the marker frame's
two-byte packet `[9, 9]` does not fit, so the frame is pushed back and
the buffer ends exactly full.  Call `N + 1` appends one more sample:
eviction (lines 108–114) drops the pushed-back marker sample before
extraction (line 123), so the first frame encoded is a zero frame and
the call's output is `[7, 7]`, not the packet `[9, 9]` that call `N`
computed for the pushed-back frame. -/
theorem C4_pushback_counterexample :
    encWork probeEngine ⟨50, 1⟩ [] ((1 : ℚ) :: List.replicate 499 0) 1 =
      ((1 : ℚ) :: List.replicate 499 0, []) ∧
    probeEngine ([(1 : ℚ)].map quantize) = some [9, 9] ∧
    1 < List.length ([] : List ℕ) + List.length ([9, 9] : List ℕ) ∧
    appendBounded (EncCfg.maxBufferSamples ⟨50, 1⟩)
      ((1 : ℚ) :: List.replicate 499 0) [0] =
      List.replicate 499 (0 : ℚ) ++ [0] ∧
    (encWork probeEngine ⟨50, 1⟩ ((1 : ℚ) :: List.replicate 499 0) [0] 2).2 =
      [7, 7] ∧
    (encWork probeEngine ⟨50, 1⟩
        ((1 : ℚ) :: List.replicate 499 0) [0] 2).2.take 2 ≠ [9, 9] := by
  have hq1 : quantize 1 = 32767 := by norm_num [quantize, encMaxInt16]
  have hq0 : quantize 0 = 0 := by norm_num [quantize, encMaxInt16]
  have hfss : (⟨50, 1⟩ : EncCfg).frameSizeSamples = 1 := rfl
  have hcap : (⟨50, 1⟩ : EncCfg).maxBufferSamples = 500 := rfl
  set L : List ℚ := (1 : ℚ) :: List.replicate 499 0 with hL
  have hLlen : L.length = 500 := by
    rw [hL]
    simp only [List.length_cons, List.length_replicate]
  have htake1 : L.take 1 = [1] := by rw [hL]; rfl
  have hpe9 : probeEngine ((L.take 1).map quantize) = some [9, 9] := by
    rw [htake1]
    simp [probeEngine]
  have happ1 : appendBounded (EncCfg.maxBufferSamples ⟨50, 1⟩) [] L = L := by
    rw [appendBounded_of_le _ _ _
      (by simp only [List.nil_append, hcap, hLlen]; omega)]
    simp only [List.nil_append]
  have hcall1 : encWork probeEngine ⟨50, 1⟩ [] L 1 = (L, []) := by
    simp only [encWork, happ1, hfss]
    exact encLoop_pushback_step probeEngine 1 1 L.length L [] [9, 9]
      (by rw [hLlen]; norm_num) (by norm_num) hpe9 (by norm_num)
  have hlen2 : (L ++ ([0] : List ℚ)).length = 501 := by
    simp only [List.length_append, hLlen, List.length_cons, List.length_nil]
  have happ2 : appendBounded (EncCfg.maxBufferSamples ⟨50, 1⟩) L [0] =
      List.replicate 499 (0 : ℚ) ++ [0] := by
    simp only [appendBounded, hcap]
    rw [if_pos (by rw [hlen2]; norm_num)]
    rw [hlen2, show (501 : ℕ) - 500 = 1 from rfl, hL, List.cons_append]
    rfl
  have htake2 : (List.replicate 499 (0 : ℚ) ++ [0]).take 1 = [0] := rfl
  have hpe7 : probeEngine
      (((List.replicate 499 (0 : ℚ) ++ [0]).take 1).map quantize) =
      some [7, 7] := by
    rw [htake2]
    simp [probeEngine, hq0, hq1]
  have hcall2 : encWork probeEngine ⟨50, 1⟩ L [0] 2 =
      ((List.replicate 499 (0 : ℚ) ++ [0]).drop 1, [7, 7]) := by
    simp only [encWork, happ2, hfss]
    have hstep := encLoop_write_step probeEngine 1 2
      (List.replicate 499 (0 : ℚ) ++ [0]).length
      (List.replicate 499 (0 : ℚ) ++ [0]) [] [7, 7]
      (by simp only [List.length_append, List.length_replicate,
        List.length_cons, List.length_nil]; omega)
      (by norm_num) hpe7 (by norm_num)
    rw [hstep]
    have hstop := encLoop_of_not_guard probeEngine 1 2
      (List.replicate 499 (0 : ℚ) ++ [0]).length
      ((List.replicate 499 (0 : ℚ) ++ [0]).drop 1) ([] ++ [7, 7])
      (by simp only [List.nil_append, List.length_cons, List.length_nil]; omega)
    rw [hstop]
    simp only [List.nil_append]
  refine ⟨hcall1, by simp [probeEngine], by norm_num, happ2,
    by rw [hcall2], by rw [hcall2]; decide⟩

/-! ## Candidate-ladder lemmas -/

theorem refAdd_subset (qlen : ℕ) (s : List ℕ) (r : ℕ) : s ⊆ refAdd qlen s r := by
  unfold refAdd
  split_ifs
  · exact fun x hx => hx
  · exact List.subset_append_left s [r]
  · exact fun x hx => hx

theorem foldl_refAdd_subset (qlen : ℕ) :
    ∀ (l s : List ℕ), s ⊆ l.foldl (refAdd qlen) s := by
  intro l
  induction l with
  | nil => intro s; exact fun x hx => hx
  | cons a l' ih =>
    intro s
    rw [List.foldl_cons]
    exact fun x hx => ih (refAdd qlen s a) (refAdd_subset qlen s a hx)

theorem foldl_refAdd_mem (qlen : ℕ) :
    ∀ (l s : List ℕ) (x : ℕ), x ∈ l.foldl (refAdd qlen) s →
      x ∈ s ∨ (x ∈ l ∧ x ≤ qlen) := by
  intro l
  induction l with
  | nil => intro s x hx; exact Or.inl hx
  | cons a l' ih =>
    intro s x hx
    rw [List.foldl_cons] at hx
    rcases ih (refAdd qlen s a) x hx with h | h
    · unfold refAdd at h
      split_ifs at h with h1 h2
      · exact Or.inl h
      · rcases List.mem_append.mp h with h3 | h3
        · exact Or.inl h3
        · simp only [List.mem_singleton] at h3
          rw [h3]
          exact Or.inr ⟨List.mem_cons_self a l', h1⟩
      · exact Or.inl h
    · exact Or.inr ⟨List.mem_cons_of_mem a h.1, h.2⟩

theorem foldl_refAdd_mem_of (qlen : ℕ) :
    ∀ (l s : List ℕ) (r : ℕ), r ∈ l → r ≤ qlen →
      r ∈ l.foldl (refAdd qlen) s := by
  intro l
  induction l with
  | nil => intro s r hr; cases hr
  | cons a l' ih =>
    intro s r hr hle
    rw [List.foldl_cons]
    rcases List.mem_cons.mp hr with rfl | hmem
    · apply foldl_refAdd_subset
      unfold refAdd
      rw [if_pos hle]
      split_ifs with h2
      · exact h2
      · exact List.mem_append.mpr (Or.inr (by simp))
    · exact ih _ r hmem hle

theorem foldl_refAdd_nodup (qlen : ℕ) :
    ∀ (l s : List ℕ), s.Nodup → (l.foldl (refAdd qlen) s).Nodup := by
  intro l
  induction l with
  | nil => intro s h; exact h
  | cons a l' ih =>
    intro s h
    rw [List.foldl_cons]
    apply ih
    unfold refAdd
    split_ifs with h1 h2
    · exact h
    · refine List.nodup_append.mpr ⟨h, List.nodup_singleton a, ?_⟩
      intro x hx hx'
      simp only [List.mem_singleton] at hx'
      subst hx'
      exact h2 hx
    · exact h

theorem foldl_refAdd_length (qlen : ℕ) :
    ∀ (l s : List ℕ), (l.foldl (refAdd qlen) s).length ≤ s.length + l.length := by
  intro l
  induction l with
  | nil => intro s; simp
  | cons a l' ih =>
    intro s
    rw [List.foldl_cons]
    have h1 : (refAdd qlen s a).length ≤ s.length + 1 := by
      unfold refAdd
      split_ifs <;> simp
    have h2 := ih (refAdd qlen s a)
    simp only [List.length_cons]
    omega

theorem seqFill_subset (cap : ℕ) :
    ∀ (l s : List ℕ), s ⊆ seqFill cap l s := by
  intro l
  induction l with
  | nil => intro s; exact fun x hx => hx
  | cons a l' ih =>
    intro s
    rw [seqFill]
    by_cases hmem : a ∈ s
    · rw [if_pos hmem]
      split_ifs with hcap
      · exact fun x hx => hx
      · exact fun x hx => ih s hx
    · rw [if_neg hmem]
      split_ifs with hcap
      · exact List.subset_append_left s [a]
      · exact fun x hx => ih _ (List.subset_append_left s [a] hx)

theorem seqFill_mem (cap : ℕ) :
    ∀ (l s : List ℕ) (x : ℕ), x ∈ seqFill cap l s → x ∈ s ∨ x ∈ l := by
  intro l
  induction l with
  | nil => intro s x hx; rw [seqFill] at hx; exact Or.inl hx
  | cons a l' ih =>
    intro s x hx
    rw [seqFill] at hx
    by_cases hmem : a ∈ s
    · rw [if_pos hmem] at hx
      split_ifs at hx with hcap
      · exact Or.inl hx
      · rcases ih s x hx with h | h
        · exact Or.inl h
        · exact Or.inr (List.mem_cons_of_mem a h)
    · rw [if_neg hmem] at hx
      split_ifs at hx with hcap
      · rcases List.mem_append.mp hx with h | h
        · exact Or.inl h
        · simp only [List.mem_singleton] at h
          rw [h]
          exact Or.inr (List.mem_cons_self a l')
      · rcases ih _ x hx with h | h
        · rcases List.mem_append.mp h with h2 | h2
          · exact Or.inl h2
          · simp only [List.mem_singleton] at h2
            rw [h2]
            exact Or.inr (List.mem_cons_self a l')
        · exact Or.inr (List.mem_cons_of_mem a h)

theorem seqFill_nodup (cap : ℕ) :
    ∀ (l s : List ℕ), s.Nodup → (seqFill cap l s).Nodup := by
  intro l
  induction l with
  | nil => intro s h; rw [seqFill]; exact h
  | cons a l' ih =>
    intro s h
    rw [seqFill]
    by_cases hmem : a ∈ s
    · rw [if_pos hmem]
      split_ifs with hcap
      · exact h
      · exact ih s h
    · rw [if_neg hmem]
      have h2 : (s ++ [a]).Nodup := by
        refine List.nodup_append.mpr ⟨h, List.nodup_singleton a, ?_⟩
        intro x hx hx'
        simp only [List.mem_singleton] at hx'
        subst hx'
        exact hmem hx
      split_ifs with hcap
      · exact h2
      · exact ih _ h2

theorem seqFill_length (cap : ℕ) :
    ∀ (l s : List ℕ), s.length < cap → (seqFill cap l s).length ≤ cap := by
  intro l
  induction l with
  | nil => intro s h; rw [seqFill]; omega
  | cons a l' ih =>
    intro s h
    rw [seqFill]
    by_cases hmem : a ∈ s
    · rw [if_pos hmem]
      split_ifs with hcap
      · omega
      · exact ih s h
    · rw [if_neg hmem]
      split_ifs with hcap
      · simp only [List.length_append, List.length_singleton]
        omega
      · apply ih
        simp only [List.length_append, List.length_singleton] at hcap ⊢
        omega

theorem seqFill_complete (cap : ℕ) :
    ∀ (l s : List ℕ), (seqFill cap l s).length < cap →
      ∀ x ∈ l, x ∈ seqFill cap l s := by
  intro l
  induction l with
  | nil => intro s h x hx; cases hx
  | cons a l' ih =>
    intro s h x hx
    rw [seqFill] at h ⊢
    by_cases hmem : a ∈ s
    · rw [if_pos hmem] at h ⊢
      split_ifs at h ⊢ with hcap
      · omega
      · rcases List.mem_cons.mp hx with rfl | hx'
        · exact seqFill_subset cap l' s hmem
        · exact ih s h x hx'
    · rw [if_neg hmem] at h ⊢
      split_ifs at h ⊢ with hcap
      · omega
      · rcases List.mem_cons.mp hx with rfl | hx'
        · exact seqFill_subset cap l' (s ++ [x]) (by simp)
        · exact ih _ h x hx'

theorem tryCands_first (dec : List ℕ → Option (List ℤ)) (q : List ℕ) :
    ∀ (l : List ℕ) (c : ℕ) (pcm : List ℤ), l.Sorted (· < ·) →
      tryCands dec q l = some (c, pcm) →
      c ∈ l ∧ accepts dec q c = true ∧
      (∀ c' ∈ l, c' < c → accepts dec q c' = false) := by
  intro l
  induction l with
  | nil => intro c pcm hs h; cases h
  | cons a l' ih =>
    intro c pcm hs h
    rw [tryCands] at h
    by_cases hql : q.length < a
    · rw [if_pos hql] at h
      obtain ⟨hc, hacc, hmin⟩ := ih c pcm hs.of_cons h
      refine ⟨List.mem_cons_of_mem a hc, hacc, ?_⟩
      intro c' hc' hlt
      rcases List.mem_cons.mp hc' with rfl | hmem
      · simp [accepts, hql]
      · exact hmin c' hmem hlt
    · rw [if_neg hql] at h
      rcases hd : dec (q.take a) with _ | pcm2
      · rw [hd] at h
        obtain ⟨hc, hacc, hmin⟩ := ih c pcm hs.of_cons h
        refine ⟨List.mem_cons_of_mem a hc, hacc, ?_⟩
        intro c' hc' hlt
        rcases List.mem_cons.mp hc' with rfl | hmem
        · simp [accepts, hql, hd]
        · exact hmin c' hmem hlt
      · rcases pcm2 with _ | ⟨p, ps⟩
        · rw [hd] at h
          obtain ⟨hc, hacc, hmin⟩ := ih c pcm hs.of_cons h
          refine ⟨List.mem_cons_of_mem a hc, hacc, ?_⟩
          intro c' hc' hlt
          rcases List.mem_cons.mp hc' with rfl | hmem
          · simp [accepts, hql, hd]
          · exact hmin c' hmem hlt
        · rw [hd] at h
          have h2 : (if 100 < peakAbs p ps then some (a, p :: ps)
              else tryCands dec q l') = some (c, pcm) := h
          by_cases hpk : 100 < peakAbs p ps
          · rw [if_pos hpk] at h2
            simp only [Option.some.injEq, Prod.mk.injEq] at h2
            obtain ⟨hac, -⟩ := h2
            rw [← hac]
            refine ⟨List.mem_cons_self a l', by simp [accepts, hql, hd, hpk], ?_⟩
            intro c' hc' hlt
            rcases List.mem_cons.mp hc' with rfl | hmem
            · exact absurd hlt (lt_irrefl _)
            · have := List.rel_of_sorted_cons hs c' hmem
              omega
          · rw [if_neg hpk] at h2
            obtain ⟨hc, hacc, hmin⟩ := ih c pcm hs.of_cons h2
            refine ⟨List.mem_cons_of_mem a hc, hacc, ?_⟩
            intro c' hc' hlt
            rcases List.mem_cons.mp hc' with rfl | hmem
            · simp [accepts, hql, hd, hpk]
            · exact hmin c' hmem hlt

/-- C3: in variable-size mode the per-call candidate ladder is a
duplicate-free strictly-ascending list of at most 50 lengths; it
contains the estimated length `clamp(qlen / 5, 40, 400)` exactly when
that fits the queue, contains every reference size fitting the queue,
every entry is a positive length fitting the queue, every entry is the
estimate, a reference size, or a sequential length below
`min(4000, qlen + 1)`, and whenever the 50-entry cap is not reached the
ladder holds every such sequential length; the scan tries candidates in
ascending order, so an accepted candidate is accepted and all smaller
ladder entries are rejected (each accepted packet restarts the scan
from the whole sorted ladder). -/
theorem C3_candidate_ladder (qlen : ℕ) :
    (candidates qlen).Sorted (· < ·) ∧
    (candidates qlen).length ≤ 50 ∧
    (estimatedPacketSize qlen ∈ candidates qlen ↔
      estimatedPacketSize qlen ≤ qlen) ∧
    (∀ r ∈ refSizes, r ≤ qlen → r ∈ candidates qlen) ∧
    (∀ c ∈ candidates qlen, 1 ≤ c ∧ c ≤ qlen) ∧
    (∀ c ∈ candidates qlen, c = estimatedPacketSize qlen ∨ c ∈ refSizes ∨
      c < min 4000 (qlen + 1)) ∧
    ((candidates qlen).length < 50 →
      ∀ n : ℕ, 1 ≤ n → n < min 4000 (qlen + 1) → n ∈ candidates qlen) ∧
    (∀ (dec : List ℕ → Option (List ℤ)) (q : List ℕ) (c : ℕ) (pcm : List ℤ),
      tryCands dec q (candidates qlen) = some (c, pcm) →
      accepts dec q c = true ∧
      ∀ c' ∈ candidates qlen, c' < c → accepts dec q c' = false) := by
  set est := estimatedPacketSize qlen with hestdef
  set s0 : List ℕ := if est ≤ qlen then [est] else [] with hs0def
  set s1 : List ℕ := refSizes.foldl (refAdd qlen) s0 with hs1def
  set s2 : List ℕ := seqFill 50 (List.range' 1 (min 4000 (qlen + 1) - 1)) s1
    with hs2def
  have hcand : candidates qlen = s2.insertionSort (· ≤ ·) := by
    rw [hs2def, hs1def, hs0def, hestdef]
    rfl
  have hmem2 : ∀ x : ℕ, x ∈ candidates qlen ↔ x ∈ s2 := by
    intro x
    rw [hcand]
    exact List.mem_insertionSort _
  have hs0nd : s0.Nodup := by
    rw [hs0def]
    split_ifs <;> simp
  have hs1nd : s1.Nodup := by
    rw [hs1def]
    exact foldl_refAdd_nodup qlen refSizes s0 hs0nd
  have hs2nd : s2.Nodup := by
    rw [hs2def]
    exact seqFill_nodup 50 _ s1 hs1nd
  have hperm : List.Perm (s2.insertionSort (· ≤ ·)) s2 :=
    List.perm_insertionSort _ s2
  have hsortle : (s2.insertionSort (· ≤ ·)).Sorted (· ≤ ·) :=
    List.sorted_insertionSort _ s2
  have hnd2 : (s2.insertionSort (· ≤ ·)).Nodup := hperm.nodup_iff.mpr hs2nd
  have hsorted : (candidates qlen).Sorted (· < ·) := by
    rw [hcand]
    exact hsortle.lt_of_le hnd2
  have hs0len : s0.length ≤ 1 := by
    rw [hs0def]
    split_ifs <;> simp
  have hs1len : s1.length ≤ 12 := by
    have h1 := foldl_refAdd_length qlen refSizes s0
    have h2 : refSizes.length = 11 := rfl
    rw [hs1def]
    omega
  have hlen : (candidates qlen).length ≤ 50 := by
    rw [hcand, List.length_insertionSort, hs2def]
    exact seqFill_length 50 _ s1 (by omega)
  have h40 : 40 ≤ est := by
    rw [hestdef]
    exact le_max_left _ _
  have hboundAll : ∀ x, x ∈ s2 → 1 ≤ x ∧ x ≤ qlen := by
    intro x hx
    rw [hs2def] at hx
    rcases seqFill_mem 50 _ s1 x hx with h | h
    · rw [hs1def] at h
      rcases foldl_refAdd_mem qlen refSizes s0 x h with h2 | h2
      · rw [hs0def] at h2
        split_ifs at h2 with he
        · simp only [List.mem_singleton] at h2
          omega
        · cases h2
      · have h1r : ∀ r ∈ refSizes, 1 ≤ r := by decide
        exact ⟨h1r x h2.1, h2.2⟩
    · rw [List.mem_range'_1] at h
      omega
  have hestmem : est ∈ candidates qlen ↔ est ≤ qlen := by
    constructor
    · intro h
      exact (hboundAll est ((hmem2 est).mp h)).2
    · intro h
      apply (hmem2 est).mpr
      rw [hs2def]
      apply seqFill_subset
      rw [hs1def]
      apply foldl_refAdd_subset
      rw [hs0def, if_pos h]
      simp
  have hrefs : ∀ r ∈ refSizes, r ≤ qlen → r ∈ candidates qlen := by
    intro r hr hle
    apply (hmem2 r).mpr
    rw [hs2def]
    apply seqFill_subset
    rw [hs1def]
    exact foldl_refAdd_mem_of qlen refSizes s0 r hr hle
  have hsrc : ∀ c ∈ candidates qlen,
      c = est ∨ c ∈ refSizes ∨ c < min 4000 (qlen + 1) := by
    intro c hcmem
    have hx := (hmem2 c).mp hcmem
    rw [hs2def] at hx
    rcases seqFill_mem 50 _ s1 c hx with h | h
    · rw [hs1def] at h
      rcases foldl_refAdd_mem qlen refSizes s0 c h with h2 | h2
      · rw [hs0def] at h2
        split_ifs at h2 with he
        · simp only [List.mem_singleton] at h2
          exact Or.inl h2
        · cases h2
      · exact Or.inr (Or.inl h2.1)
    · rw [List.mem_range'_1] at h
      exact Or.inr (Or.inr (by omega))
  have hcomplete : (candidates qlen).length < 50 →
      ∀ n : ℕ, 1 ≤ n → n < min 4000 (qlen + 1) → n ∈ candidates qlen := by
    intro h50 n h1 h2
    rw [hcand, List.length_insertionSort] at h50
    apply (hmem2 n).mpr
    rw [hs2def]
    apply seqFill_complete 50 _ s1 (by rw [← hs2def]; exact h50)
    rw [List.mem_range'_1]
    omega
  have htc : ∀ (dec : List ℕ → Option (List ℤ)) (q : List ℕ) (c : ℕ)
      (pcm : List ℤ), tryCands dec q (candidates qlen) = some (c, pcm) →
      accepts dec q c = true ∧
      ∀ c' ∈ candidates qlen, c' < c → accepts dec q c' = false := by
    intro dec q c pcm h
    obtain ⟨-, h2, h3⟩ := tryCands_first dec q (candidates qlen) c pcm hsorted h
    exact ⟨h2, h3⟩
  exact ⟨hsorted, hlen, hestmem, hrefs,
    fun c hc => hboundAll c ((hmem2 c).mp hc), hsrc, hcomplete, htc⟩

end GrOpus
